import Mathlib

set_option maxHeartbeats 1000000

/-!
Verification of the JSON syntax highlighter `highlightJSON`
(src/internal/ui/keys.go, lines 554-669).

The Go function walks the input byte string left to right with a mutable
index `i` and two boolean flags (`inString`, `afterColon`), writing either
input bytes or ANSI style directives to a string builder.  We embed it as
`hlStep` (the body of one loop iteration: the items written, the next index
and the updated flags) iterated by `hlF` with a fuel argument equal to the
remaining input length, so that the whole development is structurally
recursive and kernel-computable.
-/

namespace XJson

/-- Special characters, written via `Char.ofNat` with their ASCII codes. -/
def escC : Char := Char.ofNat 27

def dquoteC : Char := Char.ofNat 34

def bslashC : Char := Char.ofNat 92

def lbraceC : Char := Char.ofNat 123

def rbraceC : Char := Char.ofNat 125

def lbrackC : Char := Char.ofNat 91

def rbrackC : Char := Char.ofNat 93

def colonC : Char := Char.ofNat 58

def commaC : Char := Char.ofNat 44

def spaceC : Char := Char.ofNat 32

def nlC : Char := Char.ofNat 10

def tabC : Char := Char.ofNat 9

/-- Default character handed to `List.getD`; never observable because every
read in the source is guarded by a bounds check (see claim C10). -/
def dfltC : Char := Char.ofNat 0

/-- ANSI reset directive `ESC[0m` (Go: `"\033[0m"`). -/
def resetD : List Char := [escC, lbrackC] ++ ("0m").data

/-- Key color `ESC[38;5;203m` (Go comment: bright coral/red for keys). -/
def keyD : List Char := [escC, lbrackC] ++ ("38;5;203m").data

/-- String color `ESC[38;5;114m` (Go comment: soft green for strings). -/
def strD : List Char := [escC, lbrackC] ++ ("38;5;114m").data

/-- Colon color `ESC[38;5;245m` (Go comment: gray colon). -/
def punctD : List Char := [escC, lbrackC] ++ ("38;5;245m").data

/-- Number color `ESC[38;5;215m` (Go comment: orange for numbers). -/
def numD : List Char := [escC, lbrackC] ++ ("38;5;215m").data

/-- Color of `true` literal `ESC[38;5;79m` (Go comment: teal). -/
def trueD : List Char := [escC, lbrackC] ++ ("38;5;79m").data

/-- Color of `false` literal `ESC[38;5;204m` (Go comment: pink). -/
def falseD : List Char := [escC, lbrackC] ++ ("38;5;204m").data

/-- Color of `null` literal `ESC[38;5;139m` (Go comment: purple). -/
def nullD : List Char := [escC, lbrackC] ++ ("38;5;139m").data

/-- Brace style `ESC[38;5;222m` + `ESC[1m` (Go: bold gold, one WriteString). -/
def braceD : List Char :=
  [escC, lbrackC] ++ ("38;5;222m").data ++ [escC, lbrackC] ++ ("1m").data

/-- Bracket style `ESC[38;5;147m` + `ESC[1m` (Go: bold lavender). -/
def bracketD : List Char :=
  [escC, lbrackC] ++ ("38;5;147m").data ++ [escC, lbrackC] ++ ("1m").data

/-- All style directives the function ever writes. -/
def directives : List (List Char) :=
  [resetD, keyD, strD, punctD, numD, trueD, falseD, nullD, braceD, bracketD]

/-- The word `true` as characters (Go literal in `s[i:i+4] == "true"`). -/
def trueW : List Char := ('t' :: ("rue").data)

/-- The word `false` as characters. -/
def falseW : List Char := ('f' :: ("alse").data)

/-- The word `null` as characters. -/
def nullW : List Char := ('n' :: ("ull").data)

/-- One unit of output: either an input character passed through (a call to
`result.WriteByte`) or a style directive (a call to `result.WriteString`
with one of the ANSI constants). -/
inductive Item where
  | raw : Char → Item
  | sty : List Char → Item
deriving DecidableEq, Repr

/-- Go `c >= '0' && c <= '9'`. -/
def isDigC (c : Char) : Bool := 48 ≤ c.toNat && c.toNat ≤ 57

/-- Characters that continue a number token, Go line 612:
`(s[i+1] >= '0' && s[i+1] <= '9') || s[i+1] == '.' || s[i+1] == 'e' ||
 s[i+1] == 'E' || s[i+1] == '+' || s[i+1] == '-'`. -/
def numContC (c : Char) : Bool :=
  isDigC c || c == '.' || c == 'e' || c == 'E' || c == '+' || c == '-'

/-- Length of the run consumed by the inner number loop, Go lines 612-615:
`for i+1 < len(s) && numCont(s[i+1]) { i++; ... }`, counting from index `j`.
Fuel-recursive; the callers pass fuel `s.length`, which is always enough. -/
def numRun : Nat → List Char → Nat → Nat
  | 0, _, _ => 0
  | f+1, s, j =>
      if decide (j < s.length) && numContC (s.getD j dfltC) then
        numRun f s (j+1) + 1
      else 0

/-- The `j` loop of the key lookahead, Go lines 578-591: scan forward from
index `j` for the next `"` character (no escape check), returning its index. -/
def findQ : Nat → List Char → Nat → Option Nat
  | 0, _, _ => none
  | f+1, s, j =>
      if j < s.length then
        if s.getD j dfltC == dquoteC then some j else findQ f s (j+1)
      else none

/-- The `k` loop of the key lookahead, Go lines 581-588: starting at index
`k`, skip spaces, newlines and tabs; report whether the first other
character is a colon. -/
def colonWs : Nat → List Char → Nat → Bool
  | 0, _, _ => false
  | f+1, s, k =>
      if k < s.length then
        if s.getD k dfltC == colonC then true
        else if s.getD k dfltC == spaceC || s.getD k dfltC == nlC
            || s.getD k dfltC == tabC then colonWs f s (k+1)
        else false
      else false

/-- The key lookahead, Go lines 577-591: from the opening quote at index
`i`, find the next quote, then check for a colon after whitespace. -/
def isKeyAt (s : List Char) (i : Nat) : Bool :=
  match findQ s.length s (i+1) with
  | some j => colonWs s.length s (j+1)
  | none => false

/-- Result of one iteration of the main loop: items written to the builder,
the index at which the loop resumes, and the updated flags. -/
structure StepOut where
  out : List Item
  next : Nat
  inS : Bool
  aft : Bool
deriving Repr

/-- Body of one iteration of the main loop, Go lines 559-666.  `i` is the
loop index (caller guarantees `i < s.length`), `inString`/`afterColon` the
two flags.  Branches appear in the order of the Go `switch`. -/
def hlStep (s : List Char) (i : Nat) (inString afterColon : Bool) : StepOut :=
  if s.getD i dfltC == dquoteC then
    if decide (0 < i) && (s.getD (i-1) dfltC == bslashC) then
      ⟨[.raw (s.getD i dfltC)], i+1, inString, afterColon⟩
    else if inString then
      ⟨[.raw (s.getD i dfltC), .sty resetD], i+1, false, false⟩
    else
      ⟨[.sty (if isKeyAt s i then keyD else strD), .raw (s.getD i dfltC)],
        i+1, true, afterColon⟩
  else if s.getD i dfltC == colonC && !inString then
    ⟨[.sty punctD, .raw (s.getD i dfltC), .sty resetD], i+1, inString, true⟩
  else if isDigC (s.getD i dfltC) || s.getD i dfltC == '-'
      || s.getD i dfltC == '.' then
    if !inString && afterColon then
      ⟨.sty numD :: .raw (s.getD i dfltC)
          :: ((s.drop (i+1)).take (numRun s.length s (i+1))).map .raw
          ++ [.sty resetD],
        i + 1 + numRun s.length s (i+1), inString, false⟩
    else ⟨[.raw (s.getD i dfltC)], i+1, inString, afterColon⟩
  else if s.getD i dfltC == 't' && !inString && decide (i+3 < s.length)
      && ((s.drop i).take 4 == trueW) then
    ⟨.sty trueD :: trueW.map .raw ++ [.sty resetD], i+4, inString, false⟩
  else if s.getD i dfltC == 'f' && !inString && decide (i+4 < s.length)
      && ((s.drop i).take 5 == falseW) then
    ⟨.sty falseD :: falseW.map .raw ++ [.sty resetD], i+5, inString, false⟩
  else if s.getD i dfltC == 'n' && !inString && decide (i+3 < s.length)
      && ((s.drop i).take 4 == nullW) then
    ⟨.sty nullD :: nullW.map .raw ++ [.sty resetD], i+4, inString, false⟩
  else if s.getD i dfltC == lbraceC || s.getD i dfltC == rbraceC then
    ⟨[.sty braceD, .raw (s.getD i dfltC), .sty resetD], i+1, inString,
      if s.getD i dfltC == lbraceC then false else afterColon⟩
  else if s.getD i dfltC == lbrackC || s.getD i dfltC == rbrackC then
    ⟨[.sty bracketD, .raw (s.getD i dfltC), .sty resetD], i+1, inString,
      if s.getD i dfltC == lbrackC then false else afterColon⟩
  else if s.getD i dfltC == commaC && !inString then
    ⟨[.raw (s.getD i dfltC)], i+1, inString, false⟩
  else
    ⟨[.raw (s.getD i dfltC)], i+1, inString, afterColon⟩

/-- The main loop, Go lines 559-666, iterating `hlStep` from index `i` with
at most `fuel` iterations.  Every iteration advances the index by at least
one, so fuel `s.length - i` is always enough. -/
def hlF : Nat → List Char → Nat → Bool → Bool → List Item
  | 0, _, _, _, _ => []
  | f+1, s, i, inString, afterColon =>
      if i < s.length then
        (hlStep s i inString afterColon).out ++
          hlF f s (hlStep s i inString afterColon).next
            (hlStep s i inString afterColon).inS
            (hlStep s i inString afterColon).aft
      else []

/-- The item sequence produced for a whole input: both flags start `false`
(Go lines 556-557) and the index starts at `0`. -/
def hlItems (s : List Char) : List Item := hlF s.length s 0 false false

/-- The loop run from an arbitrary index with canonical fuel. -/
def hlAt (s : List Char) (i : Nat) (b1 b2 : Bool) : List Item :=
  hlF (s.length - i) s i b1 b2

/-- Flattening of the item sequence into the output string, mirroring the
builder: a `raw` item contributes its character, a `sty` item its
directive. -/
def itemsRender : List Item → List Char
  | [] => []
  | .raw c :: tl => c :: itemsRender tl
  | .sty d :: tl => d ++ itemsRender tl

/-- `highlightJSON`, Go lines 554-669. -/
def highlightJSON (s : String) : String :=
  String.mk (itemsRender (hlItems s.data))

/-- The input characters carried by an item sequence, in order: this is the
output with every inserted style directive stripped. -/
def itemsRaw : List Item → List Char
  | [] => []
  | .raw c :: tl => c :: itemsRaw tl
  | .sty _ :: tl => itemsRaw tl

/-- Check that every style directive in an item sequence is one of the ten
ANSI constants of the source. -/
def stysOK (l : List Item) : Bool :=
  l.all (fun it => match it with
    | .raw _ => true
    | .sty d => directives.contains d)

/-- Item that is exactly the reset directive. -/
def isResetI (it : Item) : Bool :=
  match it with
  | .sty d => d == resetD
  | .raw _ => false

/-- Whether a reset directive occurs somewhere in the sequence. -/
def hasReset (l : List Item) : Bool := l.any isResetI

/-- Every color directive in the sequence is eventually followed by a reset
directive before the end of the sequence. -/
def colorsClosed : List Item → Bool
  | [] => true
  | .raw _ :: tl => colorsClosed tl
  | .sty d :: tl => (d == resetD || hasReset tl) && colorsClosed tl

/-- State projection of the main loop: runs the same iterations as `hlF`
but only tracks the flags, reporting whether the `inString` flag is `false`
when the input (or the fuel) is exhausted, i.e. whether every string the
scanner opened was also closed. -/
def okF : Nat → List Char → Nat → Bool → Bool → Bool
  | 0, _, _, inString, _ => !inString
  | f+1, s, i, inString, afterColon =>
      if i < s.length then
        okF f s (hlStep s i inString afterColon).next
          (hlStep s i inString afterColon).inS
          (hlStep s i inString afterColon).aft
      else !inString

/-- Whether a whole input closes every string it opens. -/
def stringsClosed (s : List Char) : Bool := okF s.length s 0 false false

/-- Indices read by the `j` loop of the key lookahead: each iteration reads
`s[j]` only after checking `j < len(s)`. -/
def findQAcc : Nat → List Char → Nat → List Nat
  | 0, _, _ => []
  | f+1, s, j =>
      if j < s.length then
        j :: (if s.getD j dfltC == dquoteC then [] else findQAcc f s (j+1))
      else []

/-- Indices read by the `k` loop of the key lookahead. -/
def colonWsAcc : Nat → List Char → Nat → List Nat
  | 0, _, _ => []
  | f+1, s, k =>
      if k < s.length then
        k :: (if s.getD k dfltC == colonC then []
          else if s.getD k dfltC == spaceC || s.getD k dfltC == nlC
              || s.getD k dfltC == tabC then colonWsAcc f s (k+1)
          else [])
      else []

/-- Indices read by the inner number loop: the condition reads `s[i+1]`
only after checking `i+1 < len(s)`, and the body re-reads the same index. -/
def numRunAcc : Nat → List Char → Nat → List Nat
  | 0, _, _ => []
  | f+1, s, j =>
      if j < s.length then
        j :: (if numContC (s.getD j dfltC) then numRunAcc f s (j+1) else [])
      else []

/-- All indices read by the key lookahead at opening quote `i`. -/
def keyAcc (s : List Char) (i : Nat) : List Nat :=
  findQAcc s.length s (i+1) ++
    (match findQ s.length s (i+1) with
      | some j => colonWsAcc s.length s (j+1)
      | none => [])

/-- Indices read when evaluating the three literal-word case conditions:
the slice `s[i:i+4]` (resp. `s[i:i+5]`) is read only when the preceding
short-circuit conjuncts hold, in particular `i+3 < len(s)`
(resp. `i+4 < len(s)`). -/
def litAcc (s : List Char) (i : Nat) (inString : Bool) : List Nat :=
  (if s.getD i dfltC == 't' && !inString && decide (i+3 < s.length) then
    [i, i+1, i+2, i+3] else []) ++
  (if s.getD i dfltC == 'f' && !inString && decide (i+4 < s.length) then
    [i, i+1, i+2, i+3, i+4] else []) ++
  (if s.getD i dfltC == 'n' && !inString && decide (i+3 < s.length) then
    [i, i+1, i+2, i+3] else [])

/-- All indices the loop body reads during the iteration at index `i`:
the character `s[i]` itself; `s[i-1]` in the escape test, read only when
`0 < i`; the lookahead reads when an opening quote is handled; the number
run reads when a number is consumed; and the literal slice reads. -/
def stepAcc (s : List Char) (i : Nat) (inString afterColon : Bool) : List Nat :=
  i ::
  (if s.getD i dfltC == dquoteC then
    (if decide (0 < i) then [i-1] else []) ++
    (if decide (0 < i) && (s.getD (i-1) dfltC == bslashC) then []
     else if inString then []
     else keyAcc s i)
  else if s.getD i dfltC == colonC && !inString then []
  else if isDigC (s.getD i dfltC) || s.getD i dfltC == '-'
      || s.getD i dfltC == '.' then
    (if !inString && afterColon then numRunAcc s.length s (i+1) else [])
  else litAcc s i inString)

/-- All indices read by the whole run of the loop from index `i`. -/
def hlAcc : Nat → List Char → Nat → Bool → Bool → List Nat
  | 0, _, _, _, _ => []
  | f+1, s, i, inString, afterColon =>
      if i < s.length then
        stepAcc s i inString afterColon ++
          hlAcc f s (hlStep s i inString afterColon).next
            (hlStep s i inString afterColon).inS
            (hlStep s i inString afterColon).aft
      else []

/-- Boundedness of a list of indices. -/
def allBelow (l : List Nat) (n : Nat) : Bool := l.all (fun a => decide (a < n))

end XJson

namespace XJson

/-! Basic lemmas about item sequences. -/

@[simp]
theorem itemsRaw_nil : itemsRaw [] = [] := rfl

@[simp]
theorem itemsRaw_cons_raw (c : Char) (l : List Item) :
    itemsRaw (.raw c :: l) = c :: itemsRaw l := rfl

@[simp]
theorem itemsRaw_cons_sty (d : List Char) (l : List Item) :
    itemsRaw (.sty d :: l) = itemsRaw l := rfl

@[simp]
theorem itemsRaw_append (l1 l2 : List Item) :
    itemsRaw (l1 ++ l2) = itemsRaw l1 ++ itemsRaw l2 := by
  induction l1 with
  | nil => rfl
  | cons it tl ih => cases it <;> simp [ih]

@[simp]
theorem itemsRaw_map_raw (l : List Char) : itemsRaw (l.map .raw) = l := by
  induction l with
  | nil => rfl
  | cons c tl ih => simp [ih]

@[simp]
theorem stysOK_nil : stysOK [] = true := rfl

@[simp]
theorem stysOK_cons_raw (c : Char) (l : List Item) :
    stysOK (.raw c :: l) = stysOK l := by
  simp [stysOK]

@[simp]
theorem stysOK_cons_sty (d : List Char) (l : List Item) :
    stysOK (.sty d :: l) = (directives.contains d && stysOK l) := by
  simp [stysOK]

@[simp]
theorem stysOK_append (l1 l2 : List Item) :
    stysOK (l1 ++ l2) = (stysOK l1 && stysOK l2) := by
  simp [stysOK, List.all_append]

@[simp]
theorem stysOK_map_raw (l : List Char) : stysOK (l.map .raw) = true := by
  induction l with
  | nil => rfl
  | cons c tl ih => simp [ih]

@[simp]
theorem hasReset_nil : hasReset [] = false := rfl

@[simp]
theorem hasReset_cons_raw (c : Char) (l : List Item) :
    hasReset (.raw c :: l) = hasReset l := by
  simp [hasReset, isResetI]

@[simp]
theorem hasReset_cons_sty (d : List Char) (l : List Item) :
    hasReset (.sty d :: l) = ((d == resetD) || hasReset l) := by
  simp [hasReset, isResetI]

@[simp]
theorem hasReset_append (l1 l2 : List Item) :
    hasReset (l1 ++ l2) = (hasReset l1 || hasReset l2) := by
  simp [hasReset, List.any_append]

@[simp]
theorem hasReset_map_raw (l : List Char) (l2 : List Item) :
    hasReset (l.map .raw ++ l2) = hasReset l2 := by
  induction l with
  | nil => rfl
  | cons c tl ih => simp [ih]

@[simp]
theorem colorsClosed_nil : colorsClosed [] = true := rfl

@[simp]
theorem colorsClosed_cons_raw (c : Char) (l : List Item) :
    colorsClosed (.raw c :: l) = colorsClosed l := rfl

@[simp]
theorem colorsClosed_cons_sty (d : List Char) (l : List Item) :
    colorsClosed (.sty d :: l) = (((d == resetD) || hasReset l) && colorsClosed l) := rfl

@[simp]
theorem colorsClosed_map_raw (l : List Char) (l2 : List Item) :
    colorsClosed (l.map .raw ++ l2) = colorsClosed l2 := by
  induction l with
  | nil => rfl
  | cons c tl ih => simp [ih]

/-! Getting one character off a drop. -/

theorem drop_getD_cons (s : List Char) (i : Nat) (h : i < s.length) :
    s.drop i = s.getD i dfltC :: s.drop (i+1) := by
  induction s generalizing i with
  | nil => simp at h
  | cons a tl ih =>
    cases i with
    | zero => simp
    | succ n =>
      have hn : n < tl.length := by simpa using h
      simpa using ih n hn

/-! Bounds on the iteration step. -/

theorem numRun_zero (s : List Char) (j : Nat) : numRun 0 s j = 0 := rfl

theorem numRun_succ (f : Nat) (s : List Char) (j : Nat) :
    numRun (f+1) s j =
      if decide (j < s.length) && numContC (s.getD j dfltC) then
        numRun f s (j+1) + 1
      else 0 := rfl

theorem numRun_bound (f : Nat) (s : List Char) :
    ∀ j : Nat, j ≤ s.length → j + numRun f s j ≤ s.length := by
  induction f with
  | zero => intro j h; rw [numRun_zero]; omega
  | succ f ih =>
    intro j h
    rw [numRun_succ]
    by_cases hc : (decide (j < s.length) && numContC (s.getD j dfltC)) = true
    · have hj : j < s.length := by
        have := (Bool.and_eq_true _ _).mp hc
        exact of_decide_eq_true this.1
      have := ih (j+1) (by omega)
      rw [if_pos hc]
      omega
    · rw [if_neg hc]
      omega

theorem hlStep_next_gt (s : List Char) (i : Nat) (b1 b2 : Bool) :
    i < (hlStep s i b1 b2).next := by
  unfold hlStep
  split_ifs <;> dsimp only <;> omega

theorem hlStep_next_le (s : List Char) (i : Nat) (b1 b2 : Bool)
    (h : i < s.length) : (hlStep s i b1 b2).next ≤ s.length := by
  unfold hlStep
  split_ifs <;> dsimp only
  all_goals first
    | omega
    | (have hnb : i + 1 + numRun s.length s (i+1) ≤ s.length :=
        numRun_bound s.length s (i+1) (by omega)
       omega)
    | (simp only [Bool.and_eq_true, decide_eq_true_eq] at *; omega)

/-! Fuel irrelevance: any fuel at least the remaining length gives the same
item sequence, so `hlAt` (canonical fuel) describes every run. -/

theorem hlF_fuel : ∀ (f g : Nat) (s : List Char) (i : Nat) (b1 b2 : Bool),
    s.length ≤ i + f → s.length ≤ i + g → hlF f s i b1 b2 = hlF g s i b1 b2 := by
  intro f
  induction f with
  | zero =>
    intro g s i b1 b2 hf hg
    have hi : ¬ i < s.length := by omega
    cases g with
    | zero => rfl
    | succ g => simp [hlF, hi]
  | succ f ih =>
    intro g s i b1 b2 hf hg
    by_cases hi : i < s.length
    · cases g with
      | zero => omega
      | succ g =>
        simp only [hlF, if_pos hi]
        have hgt := hlStep_next_gt s i b1 b2
        congr 1
        exact ih g s _ _ _ (by omega) (by omega)
    · cases g with
      | zero => simp [hlF, hi]
      | succ g => simp [hlF, hi]

theorem hlAt_step (s : List Char) (i : Nat) (b1 b2 : Bool) (h : i < s.length) :
    hlAt s i b1 b2 = (hlStep s i b1 b2).out ++
      hlAt s (hlStep s i b1 b2).next (hlStep s i b1 b2).inS (hlStep s i b1 b2).aft := by
  unfold hlAt
  obtain ⟨f, hf⟩ : ∃ f, s.length - i = f + 1 := ⟨s.length - i - 1, by omega⟩
  rw [hf]
  simp only [hlF, if_pos h]
  have hgt := hlStep_next_gt s i b1 b2
  congr 1
  exact hlF_fuel f (s.length - (hlStep s i b1 b2).next) s _ _ _ (by omega) (by omega)

theorem hlAt_stop (s : List Char) (i : Nat) (b1 b2 : Bool)
    (h : s.length ≤ i) : hlAt s i b1 b2 = [] := by
  unfold hlAt
  have : s.length - i = 0 := by omega
  rw [this]
  rfl

theorem hlItems_eq_hlAt (s : List Char) : hlItems s = hlAt s 0 false false := by
  unfold hlItems hlAt
  rfl

end XJson

namespace XJson

/-! Character disequality facts used to steer the branch chain. -/

theorem char_bne_of_toNat_ne {c d : Char} (h : c.toNat ≠ d.toNat) :
    (c == d) = false := by
  apply beq_eq_false_iff_ne.mpr
  intro he
  exact h (by rw [he])

theorem isDigC_toNat {c : Char} (h : isDigC c = true) :
    48 ≤ c.toNat ∧ c.toNat ≤ 57 := by
  simpa [isDigC, Bool.and_eq_true, decide_eq_true_eq] using h

theorem numStart_toNat {c : Char}
    (hd : (isDigC c || c == '-' || c == '.') = true) :
    c.toNat = 45 ∨ c.toNat = 46 ∨ (48 ≤ c.toNat ∧ c.toNat ≤ 57) := by
  simp only [Bool.or_eq_true] at hd
  rcases hd with (h | h) | h
  · right; right; exact isDigC_toNat h
  · left
    have : c = '-' := beq_iff_eq.mp h
    rw [this]
    decide
  · right; left
    have : c = '.' := beq_iff_eq.mp h
    rw [this]
    decide

theorem numStart_ne_dquote {c : Char}
    (hd : (isDigC c || c == '-' || c == '.') = true) : (c == dquoteC) = false := by
  apply char_bne_of_toNat_ne
  have h34 : dquoteC.toNat = 34 := by decide
  rcases numStart_toNat hd with h | h | h <;> omega

theorem numStart_ne_colon {c : Char}
    (hd : (isDigC c || c == '-' || c == '.') = true) : (c == colonC) = false := by
  apply char_bne_of_toNat_ne
  have h58 : colonC.toNat = 58 := by decide
  rcases numStart_toNat hd with h | h | h <;> omega

/-! Branch lemmas for the step function, one per Go `switch` case. -/

theorem hlStep_quote_escaped (s : List Char) (i : Nat) (b1 b2 : Bool)
    (hc : s.getD i dfltC = dquoteC) (h0 : 0 < i)
    (hb : s.getD (i-1) dfltC = bslashC) :
    hlStep s i b1 b2 = ⟨[.raw dquoteC], i+1, b1, b2⟩ := by
  unfold hlStep
  rw [hc, hb, decide_eq_true h0]
  rfl

theorem hlStep_quote_close (s : List Char) (i : Nat) (b2 : Bool)
    (hc : s.getD i dfltC = dquoteC)
    (hesc : (decide (0 < i) && (s.getD (i-1) dfltC == bslashC)) = false) :
    hlStep s i true b2 = ⟨[.raw dquoteC, .sty resetD], i+1, false, false⟩ := by
  unfold hlStep
  rw [hc, hesc]
  rfl

theorem hlStep_quote_open (s : List Char) (i : Nat) (b2 : Bool)
    (hc : s.getD i dfltC = dquoteC)
    (hesc : (decide (0 < i) && (s.getD (i-1) dfltC == bslashC)) = false) :
    hlStep s i false b2 =
      ⟨[.sty (if isKeyAt s i then keyD else strD), .raw dquoteC], i+1, true, b2⟩ := by
  unfold hlStep
  rw [hc, hesc]
  rfl

theorem hlStep_colon_go (s : List Char) (i : Nat) (b2 : Bool)
    (hc : s.getD i dfltC = colonC) :
    hlStep s i false b2 = ⟨[.sty punctD, .raw colonC, .sty resetD], i+1, false, true⟩ := by
  unfold hlStep
  rw [hc]
  rfl

theorem hlStep_colon_in (s : List Char) (i : Nat) (b2 : Bool)
    (hc : s.getD i dfltC = colonC) :
    hlStep s i true b2 = ⟨[.raw colonC], i+1, true, b2⟩ := by
  unfold hlStep
  rw [hc]
  rfl

theorem hlStep_num_go (s : List Char) (i : Nat) (c : Char)
    (hc : s.getD i dfltC = c)
    (hd : (isDigC c || c == '-' || c == '.') = true) :
    hlStep s i false true =
      ⟨.sty numD :: .raw c
          :: ((s.drop (i+1)).take (numRun s.length s (i+1))).map .raw
          ++ [.sty resetD],
        i + 1 + numRun s.length s (i+1), false, false⟩ := by
  unfold hlStep
  rw [hc, numStart_ne_dquote hd, numStart_ne_colon hd, hd]
  rfl

theorem hlStep_num_stay (s : List Char) (i : Nat) (c : Char)
    (hc : s.getD i dfltC = c)
    (hd : (isDigC c || c == '-' || c == '.') = true) :
    hlStep s i false false = ⟨[.raw c], i+1, false, false⟩ := by
  unfold hlStep
  rw [hc, numStart_ne_dquote hd, numStart_ne_colon hd, hd]
  rfl

theorem hlStep_lbrace (s : List Char) (i : Nat) (b1 b2 : Bool)
    (hc : s.getD i dfltC = lbraceC) :
    hlStep s i b1 b2 = ⟨[.sty braceD, .raw lbraceC, .sty resetD], i+1, b1, false⟩ := by
  unfold hlStep
  rw [hc]
  rfl

theorem hlStep_rbrace (s : List Char) (i : Nat) (b1 b2 : Bool)
    (hc : s.getD i dfltC = rbraceC) :
    hlStep s i b1 b2 = ⟨[.sty braceD, .raw rbraceC, .sty resetD], i+1, b1, b2⟩ := by
  unfold hlStep
  rw [hc]
  rfl

theorem hlStep_lbrack (s : List Char) (i : Nat) (b1 b2 : Bool)
    (hc : s.getD i dfltC = lbrackC) :
    hlStep s i b1 b2 = ⟨[.sty bracketD, .raw lbrackC, .sty resetD], i+1, b1, false⟩ := by
  unfold hlStep
  rw [hc]
  rfl

theorem hlStep_rbrack (s : List Char) (i : Nat) (b1 b2 : Bool)
    (hc : s.getD i dfltC = rbrackC) :
    hlStep s i b1 b2 = ⟨[.sty bracketD, .raw rbrackC, .sty resetD], i+1, b1, b2⟩ := by
  unfold hlStep
  rw [hc]
  rfl

theorem hlStep_comma_go (s : List Char) (i : Nat) (b2 : Bool)
    (hc : s.getD i dfltC = commaC) :
    hlStep s i false b2 = ⟨[.raw commaC], i+1, false, false⟩ := by
  unfold hlStep
  rw [hc]
  rfl

theorem hlStep_comma_in (s : List Char) (i : Nat) (b2 : Bool)
    (hc : s.getD i dfltC = commaC) :
    hlStep s i true b2 = ⟨[.raw commaC], i+1, true, b2⟩ := by
  unfold hlStep
  rw [hc]
  rfl

/-! Lookahead facts. -/

theorem findQ_here (f : Nat) (s : List Char) (j : Nat) (hf : 0 < f)
    (hj : j < s.length) (hc : s.getD j dfltC = dquoteC) :
    findQ f s j = some j := by
  obtain ⟨g, rfl⟩ : ∃ g, f = g + 1 := ⟨f - 1, by omega⟩
  show (if j < s.length then
      if s.getD j dfltC == dquoteC then some j else findQ g s (j+1)
    else none) = some j
  rw [if_pos hj, hc]
  rfl

theorem isKeyAt_of_findQ_none (s : List Char) (i : Nat)
    (h : findQ s.length s (i+1) = none) : isKeyAt s i = false := by
  unfold isKeyAt
  rw [h]

end XJson

namespace XJson

theorem hlStep_raw (s : List Char) (i : Nat) (b1 b2 : Bool) (h : i < s.length) :
    itemsRaw (hlStep s i b1 b2).out = (s.drop i).take ((hlStep s i b1 b2).next - i) := by
  have hd := drop_getD_cons s i h
  unfold hlStep
  split_ifs <;> dsimp only
  all_goals first
    | (rw [show i + 1 - i = 1 from by omega, hd]
       simp only [itemsRaw_nil, itemsRaw_cons_raw, itemsRaw_cons_sty, itemsRaw_append,
         itemsRaw_map_raw, List.take_succ_cons, List.take_zero, List.append_nil])
    | (rw [show i + 1 + numRun s.length s (i+1) - i = numRun s.length s (i+1) + 1 from by omega,
         hd]
       simp only [itemsRaw_nil, itemsRaw_cons_raw, itemsRaw_cons_sty, itemsRaw_append,
         itemsRaw_map_raw, List.take_succ_cons, List.take_zero, List.append_nil])
    | (rename_i hcond
       rw [show i + 4 - i = 4 from by omega]
       simp only [Bool.and_eq_true, beq_iff_eq, decide_eq_true_eq] at hcond
       rw [hcond.2]
       simp only [itemsRaw_nil, itemsRaw_cons_raw, itemsRaw_cons_sty, itemsRaw_append,
         itemsRaw_map_raw, List.append_nil])
    | (rename_i hcond
       rw [show i + 5 - i = 5 from by omega]
       simp only [Bool.and_eq_true, beq_iff_eq, decide_eq_true_eq] at hcond
       rw [hcond.2]
       simp only [itemsRaw_nil, itemsRaw_cons_raw, itemsRaw_cons_sty, itemsRaw_append,
         itemsRaw_map_raw, List.append_nil])

theorem hlStep_stys (s : List Char) (i : Nat) (b1 b2 : Bool) :
    stysOK (hlStep s i b1 b2).out = true := by
  unfold hlStep
  split_ifs <;> dsimp only <;>
    simp only [stysOK_nil, stysOK_cons_raw, stysOK_cons_sty, stysOK_append,
      stysOK_map_raw, Bool.and_true, Bool.true_and] <;>
    decide

end XJson

namespace XJson

/-- Losslessness, jointly with directive purity, for a run of the loop
from any index with sufficient fuel. -/
theorem hlF_raw_stys : ∀ (f : Nat) (s : List Char) (i : Nat) (b1 b2 : Bool),
    s.length ≤ i + f →
    itemsRaw (hlF f s i b1 b2) = s.drop i ∧ stysOK (hlF f s i b1 b2) = true := by
  intro f
  induction f with
  | zero =>
    intro s i b1 b2 hf
    have hd : s.drop i = [] := List.drop_of_length_le (by omega)
    exact ⟨by simp [hlF, hd], by simp [hlF]⟩
  | succ f ih =>
    intro s i b1 b2 hf
    by_cases hi : i < s.length
    · simp only [hlF, if_pos hi]
      have hgt := hlStep_next_gt s i b1 b2
      have hle := hlStep_next_le s i b1 b2 hi
      obtain ⟨ih1, ih2⟩ := ih s (hlStep s i b1 b2).next
        (hlStep s i b1 b2).inS (hlStep s i b1 b2).aft (by omega)
      constructor
      · rw [itemsRaw_append, hlStep_raw s i b1 b2 hi, ih1]
        have hdd : s.drop (hlStep s i b1 b2).next =
            (s.drop i).drop ((hlStep s i b1 b2).next - i) := by
          rw [List.drop_drop]
          congr 1
          omega
        rw [hdd, List.take_append_drop]
      · rw [stysOK_append, hlStep_stys, ih2]
        rfl
    · have hd : s.drop i = [] := List.drop_of_length_le (by omega)
      simp [hlF, hi, hd]

/-- Color-reset discipline: if the state projection reports that every
opened string is closed, then every color directive emitted is followed by
a reset; moreover, while inside a string that will close, a reset is still
to come. -/
theorem hlF_colors : ∀ (f : Nat) (s : List Char) (i : Nat) (b1 b2 : Bool),
    okF f s i b1 b2 = true →
    colorsClosed (hlF f s i b1 b2) = true ∧
      (b1 = true → hasReset (hlF f s i b1 b2) = true) := by
  intro f
  induction f with
  | zero =>
    intro s i b1 b2 hok
    refine ⟨by simp [hlF], ?_⟩
    intro hb
    rw [hb] at hok
    simp [okF] at hok
  | succ f ih =>
    intro s i b1 b2 hok
    by_cases hi : i < s.length
    · simp only [okF, if_pos hi] at hok
      simp only [hlF, if_pos hi]
      obtain ⟨c1, c2⟩ := ih s (hlStep s i b1 b2).next
        (hlStep s i b1 b2).inS (hlStep s i b1 b2).aft hok
      unfold hlStep at c1 c2 ⊢
      split_ifs at c1 c2 ⊢ <;> dsimp only at c1 c2 ⊢
      all_goals
        refine ⟨?_, ?_⟩ <;>
          simp_all only [colorsClosed_nil, colorsClosed_cons_raw, colorsClosed_cons_sty,
            colorsClosed_map_raw, hasReset_nil, hasReset_cons_raw, hasReset_cons_sty,
            hasReset_append, hasReset_map_raw, List.cons_append, List.append_assoc,
            List.nil_append, beq_self_eq_true, Bool.true_or, Bool.or_true, Bool.true_and,
            Bool.and_true, forall_true_left, Bool.not_eq_true] <;>
          first
            | rfl
            | (intro _; trivial)
    · simp only [okF, if_neg hi] at hok
      refine ⟨by simp [hlF, hi], ?_⟩
      intro hb
      rw [hb] at hok
      simp at hok

end XJson

namespace XJson

/-! Bounds on every index the loop reads (claim C10 support). -/

theorem allBelow_nil (n : Nat) : allBelow [] n = true := rfl

theorem allBelow_cons (a : Nat) (l : List Nat) (n : Nat) :
    allBelow (a :: l) n = (decide (a < n) && allBelow l n) := by
  simp [allBelow]

theorem allBelow_append (l1 l2 : List Nat) (n : Nat) :
    allBelow (l1 ++ l2) n = (allBelow l1 n && allBelow l2 n) := by
  simp [allBelow, List.all_append]

theorem findQAcc_below (f : Nat) (s : List Char) :
    ∀ j : Nat, allBelow (findQAcc f s j) s.length = true := by
  induction f with
  | zero => intro j; rfl
  | succ f ih =>
    intro j
    show allBelow
      (if j < s.length then
        j :: (if s.getD j dfltC == dquoteC then [] else findQAcc f s (j+1))
      else []) s.length = true
    by_cases hj : j < s.length
    · rw [if_pos hj]
      by_cases hq : (s.getD j dfltC == dquoteC) = true
      · rw [if_pos hq]
        simp [allBelow, hj]
      · rw [if_neg hq]
        rw [allBelow_cons, ih (j+1)]
        simp [hj]
    · rw [if_neg hj]
      rfl

theorem colonWsAcc_below (f : Nat) (s : List Char) :
    ∀ k : Nat, allBelow (colonWsAcc f s k) s.length = true := by
  induction f with
  | zero => intro k; rfl
  | succ f ih =>
    intro k
    show allBelow
      (if k < s.length then
        k :: (if s.getD k dfltC == colonC then []
          else if s.getD k dfltC == spaceC || s.getD k dfltC == nlC
              || s.getD k dfltC == tabC then colonWsAcc f s (k+1)
          else [])
      else []) s.length = true
    by_cases hk : k < s.length
    · rw [if_pos hk]
      by_cases hc : (s.getD k dfltC == colonC) = true
      · rw [if_pos hc]
        simp [allBelow, hk]
      · rw [if_neg hc]
        by_cases hw : (s.getD k dfltC == spaceC || s.getD k dfltC == nlC
            || s.getD k dfltC == tabC) = true
        · rw [if_pos hw, allBelow_cons, ih (k+1)]
          simp [hk]
        · rw [if_neg hw]
          simp [allBelow, hk]
    · rw [if_neg hk]
      rfl

theorem numRunAcc_below (f : Nat) (s : List Char) :
    ∀ j : Nat, allBelow (numRunAcc f s j) s.length = true := by
  induction f with
  | zero => intro j; rfl
  | succ f ih =>
    intro j
    show allBelow
      (if j < s.length then
        j :: (if numContC (s.getD j dfltC) then numRunAcc f s (j+1) else [])
      else []) s.length = true
    by_cases hj : j < s.length
    · rw [if_pos hj]
      by_cases hn : numContC (s.getD j dfltC) = true
      · rw [if_pos hn, allBelow_cons, ih (j+1)]
        simp [hj]
      · rw [if_neg hn]
        simp [allBelow, hj]
    · rw [if_neg hj]
      rfl

theorem keyAcc_below (s : List Char) (i : Nat) :
    allBelow (keyAcc s i) s.length = true := by
  unfold keyAcc
  rw [allBelow_append, findQAcc_below]
  cases hq : findQ s.length s (i+1) with
  | none => rfl
  | some j => rw [colonWsAcc_below]; rfl

theorem litAcc_below (s : List Char) (i : Nat) (b1 : Bool) :
    allBelow (litAcc s i b1) s.length = true := by
  unfold litAcc
  rw [allBelow_append, allBelow_append]
  split_ifs <;>
    simp_all only [Bool.and_eq_true, decide_eq_true_eq, allBelow_nil, allBelow_cons,
      Bool.and_true, Bool.true_and] <;>
    simp_all [allBelow] <;>
    omega

theorem stepAcc_below (s : List Char) (i : Nat) (b1 b2 : Bool)
    (h : i < s.length) : allBelow (stepAcc s i b1 b2) s.length = true := by
  unfold stepAcc
  rw [allBelow_cons, decide_eq_true h, Bool.true_and]
  split_ifs <;>
    first
      | rfl
      | exact keyAcc_below s i
      | exact numRunAcc_below s.length s (i+1)
      | exact litAcc_below s i b1
      | (rw [allBelow_append,
          show allBelow [i-1] s.length = true from by simp [allBelow]; omega,
          Bool.true_and]
         first
           | rfl
           | exact keyAcc_below s i)

theorem hlAcc_below : ∀ (f : Nat) (s : List Char) (i : Nat) (b1 b2 : Bool),
    allBelow (hlAcc f s i b1 b2) s.length = true := by
  intro f
  induction f with
  | zero => intro s i b1 b2; rfl
  | succ f ih =>
    intro s i b1 b2
    show allBelow
      (if i < s.length then
        stepAcc s i b1 b2 ++
          hlAcc f s (hlStep s i b1 b2).next (hlStep s i b1 b2).inS (hlStep s i b1 b2).aft
      else []) s.length = true
    by_cases hi : i < s.length
    · rw [if_pos hi, allBelow_append, stepAcc_below s i b1 b2 hi, ih]
      rfl
    · rw [if_neg hi]
      rfl

end XJson

namespace XJson

/-! One-step unfoldings of the run at each kind of character. -/

theorem hlAt_colon_go (s : List Char) (i : Nat) (b2 : Bool) (h : i < s.length)
    (hc : s.getD i dfltC = colonC) :
    hlAt s i false b2 = .sty punctD :: .raw colonC :: .sty resetD :: hlAt s (i+1) false true := by
  rw [hlAt_step s i false b2 h, hlStep_colon_go s i b2 hc]
  rfl

theorem hlAt_colon_in (s : List Char) (i : Nat) (b2 : Bool) (h : i < s.length)
    (hc : s.getD i dfltC = colonC) :
    hlAt s i true b2 = .raw colonC :: hlAt s (i+1) true b2 := by
  rw [hlAt_step s i true b2 h, hlStep_colon_in s i b2 hc]
  rfl

theorem hlAt_comma_go (s : List Char) (i : Nat) (b2 : Bool) (h : i < s.length)
    (hc : s.getD i dfltC = commaC) :
    hlAt s i false b2 = .raw commaC :: hlAt s (i+1) false false := by
  rw [hlAt_step s i false b2 h, hlStep_comma_go s i b2 hc]
  rfl

theorem hlAt_comma_in (s : List Char) (i : Nat) (b2 : Bool) (h : i < s.length)
    (hc : s.getD i dfltC = commaC) :
    hlAt s i true b2 = .raw commaC :: hlAt s (i+1) true b2 := by
  rw [hlAt_step s i true b2 h, hlStep_comma_in s i b2 hc]
  rfl

theorem hlAt_lbrace (s : List Char) (i : Nat) (b1 b2 : Bool) (h : i < s.length)
    (hc : s.getD i dfltC = lbraceC) :
    hlAt s i b1 b2 = .sty braceD :: .raw lbraceC :: .sty resetD :: hlAt s (i+1) b1 false := by
  rw [hlAt_step s i b1 b2 h, hlStep_lbrace s i b1 b2 hc]
  rfl

theorem hlAt_rbrace (s : List Char) (i : Nat) (b1 b2 : Bool) (h : i < s.length)
    (hc : s.getD i dfltC = rbraceC) :
    hlAt s i b1 b2 = .sty braceD :: .raw rbraceC :: .sty resetD :: hlAt s (i+1) b1 b2 := by
  rw [hlAt_step s i b1 b2 h, hlStep_rbrace s i b1 b2 hc]
  rfl

theorem hlAt_lbrack (s : List Char) (i : Nat) (b1 b2 : Bool) (h : i < s.length)
    (hc : s.getD i dfltC = lbrackC) :
    hlAt s i b1 b2 = .sty bracketD :: .raw lbrackC :: .sty resetD :: hlAt s (i+1) b1 false := by
  rw [hlAt_step s i b1 b2 h, hlStep_lbrack s i b1 b2 hc]
  rfl

theorem hlAt_rbrack (s : List Char) (i : Nat) (b1 b2 : Bool) (h : i < s.length)
    (hc : s.getD i dfltC = rbrackC) :
    hlAt s i b1 b2 = .sty bracketD :: .raw rbrackC :: .sty resetD :: hlAt s (i+1) b1 b2 := by
  rw [hlAt_step s i b1 b2 h, hlStep_rbrack s i b1 b2 hc]
  rfl

theorem hlAt_quote_escaped (s : List Char) (i : Nat) (b1 b2 : Bool) (h : i < s.length)
    (hc : s.getD i dfltC = dquoteC) (h0 : 0 < i) (hb : s.getD (i-1) dfltC = bslashC) :
    hlAt s i b1 b2 = .raw dquoteC :: hlAt s (i+1) b1 b2 := by
  rw [hlAt_step s i b1 b2 h, hlStep_quote_escaped s i b1 b2 hc h0 hb]
  rfl

theorem hlAt_quote_open (s : List Char) (i : Nat) (b2 : Bool) (h : i < s.length)
    (hc : s.getD i dfltC = dquoteC)
    (hesc : (decide (0 < i) && (s.getD (i-1) dfltC == bslashC)) = false) :
    hlAt s i false b2 =
      .sty (if isKeyAt s i then keyD else strD) :: .raw dquoteC :: hlAt s (i+1) true b2 := by
  rw [hlAt_step s i false b2 h, hlStep_quote_open s i b2 hc hesc]
  rfl

theorem hlAt_quote_close (s : List Char) (i : Nat) (b2 : Bool) (h : i < s.length)
    (hc : s.getD i dfltC = dquoteC)
    (hesc : (decide (0 < i) && (s.getD (i-1) dfltC == bslashC)) = false) :
    hlAt s i true b2 = .raw dquoteC :: .sty resetD :: hlAt s (i+1) false false := by
  rw [hlAt_step s i true b2 h, hlStep_quote_close s i b2 hc hesc]
  rfl

theorem hlAt_num_go (s : List Char) (i : Nat) (c : Char) (h : i < s.length)
    (hc : s.getD i dfltC = c) (hd : (isDigC c || c == '-' || c == '.') = true) :
    hlAt s i false true = .sty numD :: .raw c ::
      (((s.drop (i+1)).take (numRun s.length s (i+1))).map .raw
        ++ .sty resetD :: hlAt s (i + 1 + numRun s.length s (i+1)) false false) := by
  rw [hlAt_step s i false true h, hlStep_num_go s i c hc hd]
  simp only [List.cons_append, List.append_assoc, List.singleton_append]
  rfl

theorem hlAt_num_stay (s : List Char) (i : Nat) (c : Char) (h : i < s.length)
    (hc : s.getD i dfltC = c) (hd : (isDigC c || c == '-' || c == '.') = true) :
    hlAt s i false false = .raw c :: hlAt s (i+1) false false := by
  rw [hlAt_step s i false false h, hlStep_num_stay s i c hc hd]
  rfl

end XJson

namespace XJson

/-- C1: for every input string, stripping all inserted ANSI style
directives from the output of `highlightJSON` yields exactly the input:
every input character appears in the output exactly once, in order
(`itemsRaw` of the produced items is the input), the only added pieces are
style directives drawn from the fixed ANSI palette (`stysOK`), and the
output string is exactly the rendering of that item sequence. -/
theorem c1_lossless_round_trip : ∀ s : String,
    itemsRaw (hlItems s.data) = s.data ∧
    stysOK (hlItems s.data) = true ∧
    highlightJSON s = String.mk (itemsRender (hlItems s.data)) := by
  intro s
  obtain ⟨h1, h2⟩ := hlF_raw_stys s.data.length s.data 0 false false (by omega)
  exact ⟨by simpa using h1, h2, rfl⟩

/-- C2 counterexample: in the input `"a{b"` the brace between the quotes
does NOT belong to the string span: the code styles it as a brace
(bold gold plus reset) inside the string, because the brace case of the
switch carries no inString guard. -/
theorem c2_brace_inside_string_styled :
    highlightJSON (String.mk [dquoteC, 'a', lbraceC, 'b', dquoteC]) =
      String.mk (strD ++ [dquoteC, 'a'] ++ braceD ++ [lbraceC] ++ resetD
        ++ ['b', dquoteC] ++ resetD) := by decide

/-- C2 (amended): the characters `:` and `,` are classified as their own
one-character spans only outside a string context (inside a string they are
passed through unstyled), but braces and brackets are styled as their own
one-character spans regardless of the string context. -/
theorem c2_structural_only_outside_string :
    (∀ (s : List Char) (i : Nat) (b2 : Bool), i < s.length → s.getD i dfltC = colonC →
      hlAt s i false b2 = .sty punctD :: .raw colonC :: .sty resetD :: hlAt s (i+1) false true) ∧
    (∀ (s : List Char) (i : Nat) (b2 : Bool), i < s.length → s.getD i dfltC = colonC →
      hlAt s i true b2 = .raw colonC :: hlAt s (i+1) true b2) ∧
    (∀ (s : List Char) (i : Nat) (b2 : Bool), i < s.length → s.getD i dfltC = commaC →
      hlAt s i false b2 = .raw commaC :: hlAt s (i+1) false false) ∧
    (∀ (s : List Char) (i : Nat) (b2 : Bool), i < s.length → s.getD i dfltC = commaC →
      hlAt s i true b2 = .raw commaC :: hlAt s (i+1) true b2) ∧
    (∀ (s : List Char) (i : Nat) (b1 b2 : Bool), i < s.length → s.getD i dfltC = lbraceC →
      hlAt s i b1 b2 = .sty braceD :: .raw lbraceC :: .sty resetD :: hlAt s (i+1) b1 false) ∧
    (∀ (s : List Char) (i : Nat) (b1 b2 : Bool), i < s.length → s.getD i dfltC = rbraceC →
      hlAt s i b1 b2 = .sty braceD :: .raw rbraceC :: .sty resetD :: hlAt s (i+1) b1 b2) ∧
    (∀ (s : List Char) (i : Nat) (b1 b2 : Bool), i < s.length → s.getD i dfltC = lbrackC →
      hlAt s i b1 b2 = .sty bracketD :: .raw lbrackC :: .sty resetD :: hlAt s (i+1) b1 false) ∧
    (∀ (s : List Char) (i : Nat) (b1 b2 : Bool), i < s.length → s.getD i dfltC = rbrackC →
      hlAt s i b1 b2 = .sty bracketD :: .raw rbrackC :: .sty resetD :: hlAt s (i+1) b1 b2) :=
  ⟨hlAt_colon_go, hlAt_colon_in, hlAt_comma_go, hlAt_comma_in,
    hlAt_lbrace, hlAt_rbrace, hlAt_lbrack, hlAt_rbrack⟩

/-- C2 witness: a brace at index 0 with the inString flag set is still
styled as a brace. -/
theorem c2_structural_witness :
    hlAt [lbraceC] 0 true true =
      .sty braceD :: .raw lbraceC :: .sty resetD :: hlAt [lbraceC] 1 true false :=
  c2_structural_only_outside_string.2.2.2.2.1 [lbraceC] 0 true true (by decide) (by decide)

/-- C3 counterexample: for the whole input `-12.5e+3` the output is the
input unchanged with no Number span at all (the flag is false at the very
start), and in `[1,2]` the digits after `[` and `,` are passed through
unstyled. -/
theorem c3_no_number_span_at_start :
    highlightJSON (String.mk ['-', '1', '2', '.', '5', 'e', '+', '3']) =
      String.mk ['-', '1', '2', '.', '5', 'e', '+', '3'] ∧
    highlightJSON (String.mk [lbrackC, '1', commaC, '2', rbrackC]) =
      String.mk (bracketD ++ [lbrackC] ++ resetD ++ ['1', commaC, '2']
        ++ bracketD ++ [rbrackC] ++ resetD) :=
  ⟨by decide, by decide⟩

/-- C3 (amended): the expects-a-value flag (`afterColon`) is false at the
very start, is set only by a colon outside a string, and is cleared by `,`
and `[`; a leading digit, `-` or `.` begins a styled Number span only when
the flag is set (just after a colon), in which case one span covers the
maximal run, as in `:-12.5e+3`; with the flag clear the character is passed
through unstyled. -/
theorem c3_value_flag_only_after_colon :
    (∀ s : List Char, hlItems s = hlAt s 0 false false) ∧
    (∀ (s : List Char) (i : Nat) (b2 : Bool), i < s.length → s.getD i dfltC = colonC →
      hlAt s i false b2 = .sty punctD :: .raw colonC :: .sty resetD :: hlAt s (i+1) false true) ∧
    (∀ (s : List Char) (i : Nat) (b2 : Bool), i < s.length → s.getD i dfltC = commaC →
      hlAt s i false b2 = .raw commaC :: hlAt s (i+1) false false) ∧
    (∀ (s : List Char) (i : Nat) (b1 b2 : Bool), i < s.length → s.getD i dfltC = lbrackC →
      hlAt s i b1 b2 = .sty bracketD :: .raw lbrackC :: .sty resetD :: hlAt s (i+1) b1 false) ∧
    (∀ (s : List Char) (i : Nat) (c : Char), i < s.length → s.getD i dfltC = c →
      (isDigC c || c == '-' || c == '.') = true →
      hlAt s i false true = .sty numD :: .raw c ::
        (((s.drop (i+1)).take (numRun s.length s (i+1))).map .raw
          ++ .sty resetD :: hlAt s (i + 1 + numRun s.length s (i+1)) false false)) ∧
    (∀ (s : List Char) (i : Nat) (c : Char), i < s.length → s.getD i dfltC = c →
      (isDigC c || c == '-' || c == '.') = true →
      hlAt s i false false = .raw c :: hlAt s (i+1) false false) ∧
    highlightJSON (String.mk [colonC, '-', '1', '2', '.', '5', 'e', '+', '3']) =
      String.mk (punctD ++ [colonC] ++ resetD ++ numD
        ++ ['-', '1', '2', '.', '5', 'e', '+', '3'] ++ resetD) :=
  ⟨hlItems_eq_hlAt, hlAt_colon_go, hlAt_comma_go, hlAt_lbrack,
    hlAt_num_go, hlAt_num_stay, by decide⟩

/-- C3 witness: a digit with the flag set starts a Number span. -/
theorem c3_value_flag_witness :
    hlAt ['5'] 0 false true = .sty numD :: .raw '5' ::
      ((([] : List Char).take (numRun 1 ['5'] 1)).map Item.raw
        ++ .sty resetD :: hlAt ['5'] (0 + 1 + numRun 1 ['5'] 1) false false) :=
  c3_value_flag_only_after_colon.2.2.2.2.1 ['5'] 0 '5' (by decide) (by decide) (by decide)

/-- C4 counterexample: in the input `"a\\"` (quote, a, backslash,
backslash, quote) the final quote is preceded by an escaped backslash;
the claim says it terminates the string, but the code treats it as escaped:
the string stays open, no reset is ever emitted and the output is just the
string color followed by the raw input. -/
theorem c4_escaped_backslash_quote_does_not_close :
    highlightJSON (String.mk [dquoteC, 'a', bslashC, bslashC, dquoteC]) =
      String.mk (strD ++ [dquoteC, 'a', bslashC, bslashC, dquoteC]) ∧
    colorsClosed (hlItems [dquoteC, 'a', bslashC, bslashC, dquoteC]) = false :=
  ⟨by decide, by decide⟩

/-- C4 (amended): a quote is treated as escaped exactly when the
immediately preceding input character is a backslash; there is no toggling
escaped flag, so a quote after the two-character sequence backslash
backslash is also treated as escaped and is passed through with no state
change (it does not terminate the string). -/
theorem c4_escape_is_previous_backslash :
    ∀ (s : List Char) (i : Nat) (b1 b2 : Bool), i < s.length →
      s.getD i dfltC = dquoteC → 0 < i → s.getD (i-1) dfltC = bslashC →
      hlAt s i b1 b2 = .raw dquoteC :: hlAt s (i+1) b1 b2 :=
  fun s i b1 b2 h hc h0 hb => hlAt_quote_escaped s i b1 b2 h hc h0 hb

/-- C4 witness: a quote right after a backslash is passed through even
while inside a string. -/
theorem c4_escape_witness :
    hlAt [bslashC, dquoteC] 1 true false =
      .raw dquoteC :: hlAt [bslashC, dquoteC] 2 true false :=
  c4_escape_is_previous_backslash [bslashC, dquoteC] 1 true false
    (by decide) (by decide) (by decide) (by decide)

/-- C5 counterexample: for the input `"\":"` the token's real closing quote
is the final character and nothing follows it, so by the claim the token
must be a StringValue; the code classifies it as a Key (lookahead stops at
the escaped quote and sees the colon).  Also, in `"q[w"` the bracket inside
the string receives its own styling, so the quoted span does not carry one
single classification. -/
theorem c5_key_despite_no_colon_after_close :
    highlightJSON (String.mk [dquoteC, bslashC, dquoteC, colonC, dquoteC]) =
      String.mk (keyD ++ [dquoteC, bslashC, dquoteC, colonC, dquoteC] ++ resetD) ∧
    highlightJSON (String.mk [dquoteC, 'q', lbrackC, 'w', dquoteC]) =
      String.mk (strD ++ [dquoteC, 'q'] ++ bracketD ++ [lbrackC] ++ resetD
        ++ ['w', dquoteC] ++ resetD) :=
  ⟨by decide, by decide⟩

/-- C5 (amended): at an opening quote, the token is classified Key exactly
when the key lookahead succeeds (the next quote character after the opening
quote, escaped or not, is followed after space/tab/newline by a colon) and
StringValue otherwise; the classification's color directive is emitted at
the opening quote.  For `{"a": "b"}` the span `"a"` is a Key and `"b"` a
StringValue. -/
theorem c5_key_lookahead_classification :
    (∀ (s : List Char) (i : Nat) (b2 : Bool), i < s.length →
      s.getD i dfltC = dquoteC →
      (decide (0 < i) && (s.getD (i-1) dfltC == bslashC)) = false →
      hlAt s i false b2 =
        .sty (if isKeyAt s i then keyD else strD) :: .raw dquoteC :: hlAt s (i+1) true b2) ∧
    (∀ (s : List Char) (i : Nat), isKeyAt s i =
      (match findQ s.length s (i+1) with
        | some j => colonWs s.length s (j+1)
        | none => false)) ∧
    highlightJSON (String.mk [lbraceC, dquoteC, 'a', dquoteC, colonC, spaceC,
        dquoteC, 'b', dquoteC, rbraceC]) =
      String.mk (braceD ++ [lbraceC] ++ resetD ++ keyD ++ [dquoteC, 'a', dquoteC] ++ resetD
        ++ punctD ++ [colonC] ++ resetD ++ [spaceC] ++ strD ++ [dquoteC, 'b', dquoteC]
        ++ resetD ++ braceD ++ [rbraceC] ++ resetD) :=
  ⟨hlAt_quote_open, fun s i => rfl, by decide⟩

/-- C5 witness: an unescaped opening quote is classified by the lookahead. -/
theorem c5_key_witness :
    hlAt [dquoteC] 0 false false =
      .sty (if isKeyAt [dquoteC] 0 then keyD else strD) :: .raw dquoteC ::
        hlAt [dquoteC] 1 true false :=
  c5_key_lookahead_classification.1 [dquoteC] 0 false (by decide) (by decide) (by decide)

/-- C6 counterexample: in the input `"\":1` the only quote after the
opening one is escaped, yet the lookahead stops at it, sees the colon and
classifies the token as a Key, so an escaped quote DOES end the lookahead's
candidate key, contrary to the claim. -/
theorem c6_escaped_quote_ends_lookahead :
    isKeyAt [dquoteC, bslashC, dquoteC, colonC, '1'] 0 = true ∧
    highlightJSON (String.mk [dquoteC, bslashC, dquoteC, colonC, '1']) =
      String.mk (keyD ++ [dquoteC, bslashC, dquoteC, colonC, '1']) :=
  ⟨by decide, by decide⟩

/-- C6 (amended): the key-detection lookahead scans forward from the
character immediately after the opening quote to the NEXT quote character
with no escape check at all (a quote preceded by a backslash also stops the
scan), then scans past whitespace for a colon. -/
theorem c6_lookahead_stops_at_any_quote :
    (∀ (f : Nat) (s : List Char) (j : Nat), 0 < f → j < s.length →
      s.getD j dfltC = dquoteC → findQ f s j = some j) ∧
    (∀ (s : List Char) (i : Nat), isKeyAt s i =
      (match findQ s.length s (i+1) with
        | some j => colonWs s.length s (j+1)
        | none => false)) ∧
    isKeyAt [dquoteC, bslashC, dquoteC, colonC, '1'] 0 = true :=
  ⟨fun f s j hf hj hc => findQ_here f s j hf hj hc, fun s i => rfl, by decide⟩

/-- C6 witness: the scan stops at a quote whose previous character is a
backslash. -/
theorem c6_lookahead_witness :
    findQ 5 [bslashC, dquoteC] 1 = some 1 :=
  c6_lookahead_stops_at_any_quote.1 5 [bslashC, dquoteC] 1 (by decide) (by decide) (by decide)

/-- C7 counterexample: for the unterminated input `"a` the output starts a
string color and never emits a reset: the output ends with the color
directive still active. -/
theorem c7_unterminated_leaves_color_active :
    colorsClosed (hlItems [dquoteC, 'a']) = false ∧
    highlightJSON (String.mk [dquoteC, 'a']) = String.mk (strD ++ [dquoteC, 'a']) :=
  ⟨by decide, by decide⟩

/-- C7 (amended): whenever the scan closes every string it opens
(`stringsClosed`), every color directive emitted is eventually followed by
a reset directive before the end of the output.  The restriction on the
original for-every-input claim is necessary: the unterminated input
quote-a leaves a string open and its string color directive is never
followed by a reset, so the output ends with styling still active there.
(The restriction is sufficient but not equivalent: a brace inside a string
left open still writes its own reset.) -/
theorem c7_reset_follows_colors_when_strings_close :
    (∀ s : List Char, stringsClosed s = true → colorsClosed (hlItems s) = true) ∧
    (stringsClosed [dquoteC, 'a'] = false ∧
      colorsClosed (hlItems [dquoteC, 'a']) = false) :=
  ⟨fun s h => (hlF_colors s.length s 0 false false h).1, by decide, by decide⟩

/-- C7 witness: an input whose single string closes has every color
followed by a reset. -/
theorem c7_reset_witness :
    colorsClosed (hlItems [dquoteC, 'a', dquoteC]) = true :=
  c7_reset_follows_colors_when_strings_close.1 [dquoteC, 'a', dquoteC] (by decide)

/-- C8 counterexample: for the unterminated input `"[` the bracket inside
the unterminated string still receives its own bracket styling, so the
trailing text is not a single uniform StringValue span. -/
theorem c8_bracket_inside_unterminated_styled :
    highlightJSON (String.mk [dquoteC, lbrackC]) =
      String.mk (strD ++ [dquoteC] ++ bracketD ++ [lbrackC] ++ resetD) := by decide

/-- C8 (amended): an opening quote with no quote character at all after it
is classified StringValue (never Key: the lookahead finds no quote), the
scan continues to end of input in the string state and the function returns
normally; brace and bracket characters inside the unterminated tail still
receive their own styling.  For `{"a": "b` the trailing `"b` is one
StringValue span to end of input. -/
theorem c8_unterminated_is_stringvalue_to_end :
    (∀ (s : List Char) (i : Nat) (b2 : Bool), i < s.length →
      s.getD i dfltC = dquoteC →
      (decide (0 < i) && (s.getD (i-1) dfltC == bslashC)) = false →
      findQ s.length s (i+1) = none →
      hlAt s i false b2 = .sty strD :: .raw dquoteC :: hlAt s (i+1) true b2) ∧
    highlightJSON (String.mk [lbraceC, dquoteC, 'a', dquoteC, colonC, spaceC, dquoteC, 'b']) =
      String.mk (braceD ++ [lbraceC] ++ resetD ++ keyD ++ [dquoteC, 'a', dquoteC] ++ resetD
        ++ punctD ++ [colonC] ++ resetD ++ [spaceC] ++ strD ++ [dquoteC, 'b']) := by
  constructor
  · intro s i b2 h hc hesc hq
    rw [hlAt_quote_open s i b2 h hc hesc, isKeyAt_of_findQ_none s i hq]
    rfl
  · decide

/-- C8 witness: an opening quote with nothing after it is a StringValue. -/
theorem c8_unterminated_witness :
    hlAt [dquoteC, 'x'] 0 false false =
      .sty strD :: .raw dquoteC :: hlAt [dquoteC, 'x'] 1 true false :=
  c8_unterminated_is_stringvalue_to_end.1 [dquoteC, 'x'] 0 false
    (by decide) (by decide) (by decide) (by decide)

/-- C9: for the input with a truncated literal (open brace, key a, colon,
space, t, r, u, close brace) no error occurs, the characters t r u are
passed through with no styling (they do not match the exact literal true),
and the brace, key and colon around them are still styled normally. -/
theorem c9_malformed_literal_plain :
    highlightJSON (String.mk [lbraceC, dquoteC, 'a', dquoteC, colonC, spaceC,
        't', 'r', 'u', rbraceC]) =
      String.mk (braceD ++ [lbraceC] ++ resetD ++ keyD ++ [dquoteC, 'a', dquoteC] ++ resetD
        ++ punctD ++ [colonC] ++ resetD ++ [spaceC, 't', 'r', 'u']
        ++ braceD ++ [rbraceC] ++ resetD) := by decide

/-- C10: every index the loop reads, in any iteration, any lookahead scan,
any number run and any literal slice, is below the input length: the
access-trace `hlAcc` of a run of the loop (from any start index, any flags
and any fuel, in particular the actual run of `highlightJSON`) contains
only in-bounds indices, so the out-of-range panic branch of every read is
unreachable. -/
theorem c10_all_reads_in_bounds :
    (∀ (f : Nat) (s : List Char) (i : Nat) (b1 b2 : Bool),
      allBelow (hlAcc f s i b1 b2) s.length = true) ∧
    (∀ s : String, allBelow (hlAcc s.data.length s.data 0 false false) s.data.length = true) :=
  ⟨hlAcc_below, fun s => hlAcc_below s.data.length s.data 0 false false⟩

end XJson
